import Mathlib

/-!
Verification of the orchestration logic of start_services_v2.py.

The script coordinates a Supabase deployment unit and a local AI deployment
unit.  The parts embedded here are the pure cores of its functions:

* compose_down, compose_up_supabase, compose_up_local_ai - the docker compose
  argument lists built from the profile and environment CLI choices;
* wait_for_postgres - the TCP readiness polling loop, with time passing made
  explicit;
* prepare_supabase_env - the key/value environment file merge;
* generate_searxng_secret_key - the placeholder replacement in the SearXNG
  settings file;
* adjust_cap_drop_first_run - the regex toggle of the cap_drop declaration in
  docker-compose.yml.

Definitions come first, then the supporting lemmas and the claim theorems.
-/

/-- Project name constant of the script. -/
def PROJECT_NAME : String := "localai"

/-- Profile choices accepted by the argument parser of main. -/
def cliProfiles : List String := ["cpu", "gpu-nvidia", "gpu-amd", "none"]

/-- Environment choices accepted by the argument parser of main. -/
def cliEnvironments : List String := ["private", "public"]

/-- Argument list built by compose_down (source lines 171-186): project flag,
optional profile filter, both base compose files, the override files of the
given environment, and the down action. -/
def compose_down (profile environment : String) : List String :=
  ["docker", "compose", "-p", PROJECT_NAME]
    ++ (if profile ≠ "" ∧ profile ≠ "none" then ["--profile", profile] else [])
    ++ ["-f", "supabase/docker/docker-compose.yml", "-f", "docker-compose.yml"]
    ++ (if environment = "private" then ["-f", "docker-compose.override.private.yml"]
        else if environment = "public" then
          ["-f", "docker-compose.override.public.yml",
           "-f", "docker-compose.override.public.supabase.yml"]
        else [])
    ++ ["down", "--remove-orphans"]

/-- Argument list built by compose_up_supabase (source lines 188-193). -/
def compose_up_supabase (environment : String) : List String :=
  ["docker", "compose", "-p", PROJECT_NAME, "-f", "supabase/docker/docker-compose.yml"]
    ++ (if environment = "public" then
          ["-f", "docker-compose.override.public.supabase.yml"] else [])
    ++ ["up", "-d"]

/-- Argument list built by compose_up_local_ai (source lines 195-204). -/
def compose_up_local_ai (profile environment : String) : List String :=
  ["docker", "compose", "-p", PROJECT_NAME, "-f", "docker-compose.yml"]
    ++ (if environment = "private" then ["-f", "docker-compose.override.private.yml"]
        else if environment = "public" then ["-f", "docker-compose.override.public.yml"]
        else [])
    ++ (if profile ≠ "" ∧ profile ≠ "none" then ["--profile", profile] else [])
    ++ ["up", "-d"]

/-- The composition files of a command: every argument that follows a -f flag. -/
def composeFilesOf : List String → List String
  | "-f" :: f :: rest => f :: composeFilesOf rest
  | _ :: rest => composeFilesOf rest
  | [] => []

/-- Readiness polling loop of wait_for_postgres (source lines 206-217), with
wall-clock time made explicit.  attempts n gives the duration (bounded by the
2 second socket timeout) and the outcome of the n-th connection attempt; a
failed attempt is followed by a 2 second sleep.  The loop runs while the
elapsed time now is below timeout and returns the reachability result together
with the elapsed time at return. -/
def waitLoop (attempts : Nat → Nat × Bool) (timeout : Nat) (k now : Nat) : Bool × Nat :=
  if h : now < timeout then
    if (attempts k).2 then (true, now + (attempts k).1)
    else waitLoop attempts timeout (k + 1) (now + (attempts k).1 + 2)
  else (false, now)
termination_by timeout - now
decreasing_by omega

/-- wait_for_postgres: run the polling loop from elapsed time 0. -/
def wait_for_postgres (attempts : Nat → Nat × Bool) (timeout : Nat) : Bool × Nat :=
  waitLoop attempts timeout 0 0

/-- One action of the orchestration controller after the readiness probe. -/
inductive StartAction where
  | runCompose (cmd : List String)
  | sleepFallback (seconds : Int)
deriving DecidableEq

/-- Tail of main after the readiness probe (source lines 243-248): a fallback
sleep when the probe returned False and wait_seconds is positive, then the
local AI startup command. -/
def controller_after_probe (ready : Bool) (waitSeconds : Int)
    (profile environment : String) : List StartAction :=
  (if ready = false ∧ 0 < waitSeconds then [StartAction.sleepFallback waitSeconds] else [])
    ++ [StartAction.runCompose (compose_up_local_ai profile environment)]

/-- Python whitespace (the ASCII range of str.strip and of the regex class \s). -/
def isPySpace (c : Char) : Bool :=
  c == ' ' || c == '\t' || c == '\n' || c == '\r' || c == '\x0b' || c == '\x0c'

/-- Split a text into lines the way Python file iteration does: every line
keeps its terminating newline; a last line without a newline is kept as is. -/
def splitNl : List Char → List (List Char)
  | [] => []
  | c :: rest =>
    if c = '\n' then ['\n'] :: splitNl rest
    else
      match splitNl rest with
      | [] => [[c]]
      | l :: ls => (c :: l) :: ls

/-- A line is a key/value entry when it contains an equal sign and its
stripped form does not start with a comment mark (source lines 102 and 108). -/
def isKVLine (l : List Char) : Bool :=
  l.contains '=' && !((l.dropWhile isPySpace).head? == some '#')

/-- The key of a line: everything before the first equal sign (source
lines 103 and 109). -/
def lineKey (l : List Char) : List Char :=
  l.takeWhile (fun c => !(c == '='))

/-- The keys of the key/value lines of a list of lines, in order. -/
def keysOfLines (L : List (List Char)) : List (List Char) :=
  (L.filter isKVLine).map lineKey

/-- The keys parsed from an environment file content (source lines 99-104). -/
def envKeys (content : List Char) : List (List Char) :=
  keysOfLines (splitNl content)

/-- The source lines appended by the merge: the key/value lines of the source
whose key is not a destination key (source lines 105-111). -/
def envAdditions (destContent srcContent : List Char) : List (List Char) :=
  (splitNl srcContent).filter
    (fun l => isKVLine l && !((envKeys destContent).contains (lineKey l)))

/-- Marker written before the appended lines (source line 114). -/
def envMarkerBlock : List Char := "\n# Added from root .env\n".toList

/-- The comment line inside the marker block. -/
def envMarkerLine : List Char := "# Added from root .env\n".toList

/-- Content of the destination file after prepare_supabase_env merges the
source into a pre-existing destination (source lines 98-115): when there are
additions, the marker block and the addition lines are appended; otherwise
the destination is left untouched (no write happens). -/
def prepare_supabase_env (destContent srcContent : List Char) : List Char :=
  if envAdditions destContent srcContent = [] then destContent
  else destContent ++ envMarkerBlock ++ (envAdditions destContent srcContent).flatten

/-- A well-formed line: nonempty, with a newline at most as its last character. -/
def LineWF (l : List Char) : Prop := l ≠ [] ∧ ∀ c ∈ l.dropLast, c ≠ '\n'

/-- A well-formed list of lines: every line is well formed and every line
except possibly the last ends with a newline. -/
def ProperLines : List (List Char) → Prop
  | [] => True
  | l :: rest => LineWF l ∧ (rest = [] ∨ l.getLast? = some '\n') ∧ ProperLines rest

/-- The placeholder token of the SearXNG template settings (source line 127). -/
def ultrasecretkey : List Char := "ultrasecretkey".toList

/-- Lowercase hexadecimal characters, the alphabet of secrets.token_hex. -/
def isLowerHex (c : Char) : Bool :=
  ('0' ≤ c && c ≤ '9') || ('a' ≤ c && c ≤ 'f')

/-- Modelled from the spec: secrets.token_hex(32) (source line 130) is Python
standard library, not repository code; per its documentation it returns
2 * 32 = 64 lowercase hexadecimal characters.  tokenHex32 s states that s is
such a string. -/
def tokenHex32 (s : List Char) : Prop :=
  s.length = 64 ∧ ∀ c ∈ s, isLowerHex c = true

/-- Python str.replace: replace every non-overlapping occurrence of pat,
scanning left to right, by rep.  One unit of fuel is spent per examined
position; s.length is always enough fuel, since a match consumes at least one
character when pat is nonempty. -/
def pyReplaceAux (pat rep : List Char) : Nat → List Char → List Char
  | 0, s => s
  | _ + 1, [] => []
  | fuel + 1, c :: rest =>
    if pat <+: c :: rest then rep ++ pyReplaceAux pat rep fuel ((c :: rest).drop pat.length)
    else c :: pyReplaceAux pat rep fuel rest

/-- Python text.replace(pat, rep). -/
def pyReplace (s pat rep : List Char) : List Char := pyReplaceAux pat rep s.length s

/-- Core of generate_searxng_secret_key on the settings text (source lines
126-131): when the placeholder is absent nothing is written; otherwise every
occurrence of the placeholder is replaced by the generated secret. -/
def generate_searxng_secret_key (text secret : List Char) : List Char :=
  if ultrasecretkey <:+: text then pyReplace text ultrasecretkey secret else text

/-- Match a literal pattern at the head of a text, returning the remainder. -/
def matchLit : List Char → List Char → Option (List Char)
  | [], s => some s
  | _ :: _, [] => none
  | p :: ps, c :: cs => if p == c then matchLit ps cs else none

/-- The literal cap_drop: of the toggle patterns. -/
def capDropLit : List Char := "cap_drop:".toList

/-- The literal - ALL of the toggle patterns. -/
def dashAllLit : List Char := "- ALL".toList

/-- Matcher of the regex fragment \s*cap_drop:\s*- ALL shared by both toggle
patterns (source lines 155-156).  A greedy \s* followed by a literal starting
with a non-space character is deterministic: skip all whitespace, then require
the literal. -/
def capDropCore (s : List Char) : Option (List Char) :=
  match matchLit capDropLit (s.dropWhile isPySpace) with
  | none => none
  | some s2 => matchLit dashAllLit (s2.dropWhile isPySpace)

/-- Matcher of the commented pattern #\s*cap_drop:\s*- ALL (source line 155). -/
def commentedCore : List Char → Option (List Char)
  | [] => none
  | c :: rest => if c == '#' then capDropCore rest else none

/-- re.search of the multiline-anchored active pattern ^\s*cap_drop:\s*- ALL
(source line 156): try the core matcher at every line start; atLS records
whether the current position starts a line. -/
def searchActive : Bool → List Char → Bool
  | _, [] => false
  | atLS, c :: rest =>
    (atLS && (capDropCore (c :: rest)).isSome) || searchActive (c == '\n') rest

/-- re.search of the unanchored commented pattern (source line 155). -/
def searchCommented : List Char → Bool
  | [] => false
  | c :: rest => (commentedCore (c :: rest)).isSome || searchCommented rest

/-- Replacement written by the first-run transform (source line 161). -/
def disabledReplacement : List Char :=
  "# cap_drop: - ALL  # temporarily disabled first run".toList

/-- Replacement written by the re-enable transform (source line 165). -/
def activeReplacement : List Char := "cap_drop: - ALL".toList

/-- The explanatory marker the first-run replacement appends after the
declaration. -/
def markerTail : List Char := "  # temporarily disabled first run".toList

/-- re.sub of the active pattern by the disabled replacement: scan left to
right, replacing every non-overlapping match found at a line start.  Both
patterns end in the non-newline character L, so the position right after a
match never starts a line.  One unit of fuel is spent per step; the text
length is enough fuel, since every step consumes at least one character. -/
def subActive : Nat → Bool → List Char → List Char
  | 0, _, s => s
  | _ + 1, _, [] => []
  | fuel + 1, atLS, c :: rest =>
    if atLS then
      match capDropCore (c :: rest) with
      | some rem => disabledReplacement ++ subActive fuel false rem
      | none => c :: subActive fuel (c == '\n') rest
    else c :: subActive fuel (c == '\n') rest

/-- re.sub of the commented pattern by the active replacement. -/
def subCommented : Nat → List Char → List Char
  | 0, s => s
  | _ + 1, [] => []
  | fuel + 1, c :: rest =>
    match commentedCore (c :: rest) with
    | some rem => activeReplacement ++ subCommented fuel rem
    | none => c :: subCommented fuel rest

/-- The first-run branch of adjust_cap_drop_first_run on the document text
(source lines 159-161): when the active pattern occurs somewhere, comment the
declaration out; otherwise the document is unchanged (no write). -/
def adjust_cap_drop_first_run (content : List Char) : List Char :=
  if searchActive true content then subActive content.length true content else content

/-- The not-first-run branch (source lines 163-165): when the commented
pattern occurs somewhere, re-enable the declaration; otherwise the document is
unchanged (no write). -/
def adjust_cap_drop_not_first_run (content : List Char) : List Char :=
  if searchCommented content then subCommented content.length content else content

/-- A context character that cannot interact with either toggle pattern: not
whitespace, not the letter starting cap_drop, not the comment mark. -/
def plainChar (c : Char) : Bool := !(isPySpace c) && !(c == 'c') && !(c == '#')

/-! ### Supporting lemmas and claim theorems -/

theorem contains_iff_mem {α} [BEq α] [LawfulBEq α] {as : List α} {a : α} :
    as.contains a = true ↔ a ∈ as :=
  List.elem_iff

theorem splitNl_nil : splitNl [] = [] := rfl

theorem splitNl_cons_nl (x : List Char) : splitNl ('\n' :: x) = ['\n'] :: splitNl x := by
  simp [splitNl]

theorem splitNl_cons_cons (c : Char) (t : List Char) (hc : ¬ c = '\n')
    (l : List Char) (ls : List (List Char)) (h : splitNl t = l :: ls) :
    splitNl (c :: t) = (c :: l) :: ls := by
  rw [splitNl, if_neg hc, h]

theorem splitNl_cons_empty (c : Char) (t : List Char) (hc : ¬ c = '\n')
    (h : splitNl t = []) : splitNl (c :: t) = [[c]] := by
  rw [splitNl, if_neg hc, h]

theorem splitNl_ne_nil (c : Char) (rest : List Char) : splitNl (c :: rest) ≠ [] := by
  by_cases h : c = '\n'
  · simp [splitNl, h]
  · simp only [splitNl, if_neg h]
    cases hs : splitNl rest <;> simp

theorem splitNl_append_of_endsNl :
    ∀ a b : List Char, a.getLast? = some '\n' →
      splitNl (a ++ b) = splitNl a ++ splitNl b := by
  intro a
  induction a with
  | nil => intro b h; simp at h
  | cons c t ih =>
    intro b h
    cases t with
    | nil =>
      simp only [List.getLast?_singleton, Option.some.injEq] at h
      subst h
      simp [splitNl_cons_nl, splitNl_nil]
    | cons c' t' =>
      have h' : (c' :: t').getLast? = some '\n' := by
        rwa [List.getLast?_cons_cons] at h
      by_cases hc : c = '\n'
      · subst hc
        rw [List.cons_append, splitNl_cons_nl, splitNl_cons_nl, ih b h', List.cons_append]
      · obtain ⟨l, ls, hls⟩ : ∃ l ls, splitNl (c' :: t') = l :: ls := by
          cases hx : splitNl (c' :: t') with
          | nil => exact absurd hx (splitNl_ne_nil c' t')
          | cons l ls => exact ⟨l, ls, rfl⟩
        have hab : splitNl ((c' :: t') ++ b) = l :: (ls ++ splitNl b) := by
          rw [ih b h', hls, List.cons_append]
        rw [List.cons_append, splitNl_cons_cons c _ hc _ _ hab,
          splitNl_cons_cons c _ hc _ _ hls, List.cons_append]

theorem splitNl_mid_nl (a b : List Char) :
    splitNl (a ++ '\n' :: b) = splitNl (a ++ ['\n']) ++ splitNl b := by
  have h : (a ++ ['\n']).getLast? = some '\n' := List.getLast?_concat a
  have := splitNl_append_of_endsNl (a ++ ['\n']) b h
  rwa [List.append_assoc, List.singleton_append] at this

theorem splitNl_concat_of_not_nl :
    ∀ s : List Char, s ≠ [] → s.getLast? ≠ some '\n' →
      ∃ L l, splitNl s = L ++ [l] ∧ splitNl (s ++ ['\n']) = L ++ [l ++ ['\n']] := by
  intro s
  induction s with
  | nil => intro h; exact absurd rfl h
  | cons c t ih =>
    intro _ hlast
    cases t with
    | nil =>
      have hc : ¬ c = '\n' := by
        simp only [List.getLast?_singleton] at hlast
        intro h; exact hlast (by rw [h])
      refine ⟨[], [c], ?_, ?_⟩
      · simp [splitNl, hc]
      · simp [splitNl, hc, splitNl_cons_nl]
    | cons c' t' =>
      have hlast' : (c' :: t').getLast? ≠ some '\n' := by
        rwa [List.getLast?_cons_cons] at hlast
      obtain ⟨L', l', h1, h2⟩ := ih (by simp) hlast'
      by_cases hc : c = '\n'
      · subst hc
        refine ⟨['\n'] :: L', l', ?_, ?_⟩
        · rw [splitNl_cons_nl, h1]
          rfl
        · rw [List.cons_append, splitNl_cons_nl, h2]
          rfl
      · cases L' with
        | nil =>
          refine ⟨[], c :: l', ?_, ?_⟩
          · exact splitNl_cons_cons c _ hc l' [] h1
          · exact splitNl_cons_cons c _ hc (l' ++ ['\n']) [] h2
        | cons h' L'' =>
          refine ⟨(c :: h') :: L'', l', ?_, ?_⟩
          · exact splitNl_cons_cons c _ hc h' (L'' ++ [l']) h1
          · exact splitNl_cons_cons c _ hc h' (L'' ++ [l' ++ ['\n']]) h2

theorem keysOfLines_append (A B : List (List Char)) :
    keysOfLines (A ++ B) = keysOfLines A ++ keysOfLines B := by
  simp [keysOfLines, List.filter_append]

theorem isKVLine_concat_nl (l : List Char) : isKVLine (l ++ ['\n']) = isKVLine l := by
  unfold isKVLine
  have h1 : (l ++ ['\n']).contains '=' = l.contains '=' := by
    rw [List.contains_eq_any_beq, List.contains_eq_any_beq, List.any_append]
    have hx : (['\n'].any (fun c => '=' == c)) = false := by decide
    rw [hx, Bool.or_false]
  have h2 : ((l ++ ['\n']).dropWhile isPySpace).head? = (l.dropWhile isPySpace).head? := by
    rw [List.dropWhile_append]
    by_cases he : (l.dropWhile isPySpace).isEmpty
    · rw [if_pos he]
      rw [List.isEmpty_iff] at he
      rw [he]
      have hd : List.dropWhile isPySpace ['\n'] = [] := by decide
      rw [hd]
    · rw [if_neg he]
      rw [List.isEmpty_iff] at he
      cases hx : l.dropWhile isPySpace with
      | nil => exact absurd hx he
      | cons x xs => simp [hx]
  rw [h1, h2]

theorem takeWhile_append_of_stop {p : Char → Bool} :
    ∀ l m : List Char, (∃ c ∈ l, p c = false) →
      (l ++ m).takeWhile p = l.takeWhile p := by
  intro l
  induction l with
  | nil => intro m h; simp at h
  | cons c t ih =>
    intro m h
    by_cases hc : p c
    · obtain ⟨d, hd, hdp⟩ := h
      rcases List.mem_cons.1 hd with rfl | hd'
      · rw [hc] at hdp; cases hdp
      · rw [List.cons_append]
        simp only [List.takeWhile_cons, hc]
        rw [ih m ⟨d, hd', hdp⟩]
    · rw [List.cons_append]
      simp only [List.takeWhile_cons]
      rw [Bool.not_eq_true] at hc
      rw [hc]
      simp

theorem lineKey_concat_nl (l : List Char) (h : l.contains '=' = true) :
    lineKey (l ++ ['\n']) = lineKey l := by
  unfold lineKey
  apply takeWhile_append_of_stop
  exact ⟨'=', contains_iff_mem.1 h, by simp⟩

theorem envKeys_concat_nl : ∀ s : List Char, envKeys (s ++ ['\n']) = envKeys s := by
  intro s
  by_cases hnil : s = []
  · subst hnil; decide
  · by_cases hend : s.getLast? = some '\n'
    · unfold envKeys
      rw [splitNl_append_of_endsNl s ['\n'] hend, keysOfLines_append]
      have : keysOfLines (splitNl ['\n']) = [] := by decide
      rw [this, List.append_nil]
    · obtain ⟨L, l, h1, h2⟩ := splitNl_concat_of_not_nl s hnil hend
      unfold envKeys
      rw [h1, h2, keysOfLines_append, keysOfLines_append]
      congr 1
      unfold keysOfLines
      by_cases hkv : isKVLine l = true
      · have hkv' : isKVLine (l ++ ['\n']) = true := by rw [isKVLine_concat_nl]; exact hkv
        have hc : l.contains '=' = true := by
          unfold isKVLine at hkv
          rw [Bool.and_eq_true] at hkv
          exact hkv.1
        rw [List.filter_cons, List.filter_cons, if_pos hkv', if_pos hkv, List.filter_nil,
          List.map_singleton, List.map_singleton, lineKey_concat_nl l hc]
      · have hkv' : ¬ isKVLine (l ++ ['\n']) = true := by rw [isKVLine_concat_nl]; exact hkv
        rw [List.filter_cons, List.filter_cons, if_neg hkv', if_neg hkv, List.filter_nil]

theorem lineWF_splitNl : ∀ s : List Char, ProperLines (splitNl s) := by
  intro s
  induction s with
  | nil => simp [splitNl, ProperLines]
  | cons c t ih =>
    by_cases hc : c = '\n'
    · subst hc
      rw [splitNl_cons_nl]
      refine ⟨⟨by simp, by simp⟩, Or.inr rfl, ih⟩
    · simp only [splitNl, if_neg hc]
      cases hx : splitNl t with
      | nil => exact ⟨⟨by simp, by simp⟩, Or.inl rfl, trivial⟩
      | cons l ls =>
        rw [hx] at ih
        obtain ⟨⟨hlne, hldrop⟩, hend, hrest⟩ := ih
        refine ⟨⟨by simp, ?_⟩, ?_, hrest⟩
        · intro x hx'
          rw [List.dropLast_cons_of_ne_nil hlne] at hx'
          rcases List.mem_cons.1 hx' with rfl | hx''
          · exact hc
          · exact hldrop x hx''
        · rcases hend with h | h
          · exact Or.inl h
          · refine Or.inr ?_
            cases l with
            | nil => exact absurd rfl hlne
            | cons a as =>
              rw [List.getLast?_cons_cons]
              exact h

theorem properLines_filter (p : List Char → Bool) :
    ∀ L, ProperLines L → ProperLines (L.filter p) := by
  intro L
  induction L with
  | nil => intro _; simp [ProperLines]
  | cons l rest ih =>
    intro h
    obtain ⟨hwf, hend, hrest⟩ := h
    rw [List.filter_cons]
    by_cases hp : p l
    · rw [if_pos hp]
      refine ⟨hwf, ?_, ih hrest⟩
      rcases hend with h0 | h0
      · subst h0; exact Or.inl (by simp)
      · exact Or.inr h0
    · rw [if_neg hp]
      exact ih hrest

theorem splitNl_line_of_wf : ∀ l : List Char, LineWF l → splitNl l = [l] := by
  intro l
  induction l with
  | nil => intro h; exact absurd rfl h.1
  | cons c t ih =>
    intro h
    cases t with
    | nil =>
      by_cases hc : c = '\n'
      · subst hc; rfl
      · simp [splitNl, hc]
    | cons c' t' =>
      have hc : ¬ c = '\n' := by
        refine h.2 c ?_
        rw [List.dropLast_cons_of_ne_nil (by simp)]
        exact List.mem_cons_self c _
      have hwf' : LineWF (c' :: t') := by
        refine ⟨by simp, ?_⟩
        intro x hx
        refine h.2 x ?_
        rw [List.dropLast_cons_of_ne_nil (by simp)]
        exact List.mem_cons_of_mem c hx
      exact splitNl_cons_cons c _ hc (c' :: t') [] (ih hwf')

theorem splitNl_flatten : ∀ L : List (List Char), ProperLines L → splitNl L.flatten = L := by
  intro L
  induction L with
  | nil => intro _; rfl
  | cons l rest ih =>
    intro h
    obtain ⟨hwf, hend, hrest⟩ := h
    rcases hend with h0 | h0
    · subst h0
      simp only [List.flatten_cons, List.flatten_nil, List.append_nil]
      exact splitNl_line_of_wf l hwf
    · simp only [List.flatten_cons]
      rw [splitNl_append_of_endsNl l rest.flatten h0, splitNl_line_of_wf l hwf,
        ih hrest, List.singleton_append]

theorem envKeys_merge_decomp (dest src : List Char) :
    envKeys (dest ++ envMarkerBlock ++ (envAdditions dest src).flatten)
      = envKeys dest ++ keysOfLines (envAdditions dest src) := by
  have hshape : dest ++ envMarkerBlock ++ (envAdditions dest src).flatten
      = dest ++ '\n' :: (envMarkerLine ++ (envAdditions dest src).flatten) := by
    have hmb : envMarkerBlock = '\n' :: envMarkerLine := by decide
    rw [hmb]
    simp
  have hpl : ProperLines (envAdditions dest src) := by
    unfold envAdditions
    exact properLines_filter _ _ (lineWF_splitNl src)
  have hadds : splitNl (envAdditions dest src).flatten = envAdditions dest src :=
    splitNl_flatten _ hpl
  have hsplit : splitNl (dest ++ '\n' :: (envMarkerLine ++ (envAdditions dest src).flatten))
      = splitNl (dest ++ ['\n']) ++ ([envMarkerLine] ++ envAdditions dest src) := by
    have hml : splitNl envMarkerLine = [envMarkerLine] := by decide
    rw [splitNl_mid_nl, splitNl_append_of_endsNl envMarkerLine _ (by decide), hadds, hml]
  rw [hshape]
  show keysOfLines (splitNl (dest ++ '\n' :: (envMarkerLine ++ (envAdditions dest src).flatten)))
      = envKeys dest ++ keysOfLines (envAdditions dest src)
  rw [hsplit, keysOfLines_append, keysOfLines_append]
  have h1 : keysOfLines (splitNl (dest ++ ['\n'])) = keysOfLines (splitNl dest) :=
    envKeys_concat_nl dest
  have h2 : keysOfLines [envMarkerLine] = [] := by decide
  rw [h1, h2, List.nil_append]
  rfl

theorem envKeys_merge_superset (dest src : List Char) :
    ∀ l ∈ splitNl src, isKVLine l = true →
      lineKey l ∈ envKeys (prepare_supabase_env dest src) := by
  intro l hl hkv
  unfold prepare_supabase_env
  by_cases h : envAdditions dest src = []
  · rw [if_pos h]
    have hall := List.filter_eq_nil_iff.1 h l hl
    simp only [Bool.and_eq_true, Bool.not_eq_true', not_and] at hall
    have := hall hkv
    rw [Bool.not_eq_false] at this
    exact contains_iff_mem.1 this
  · rw [if_neg h, envKeys_merge_decomp dest src]
    by_cases hk : lineKey l ∈ envKeys dest
    · exact List.mem_append_left _ hk
    · refine List.mem_append_right _ ?_
      have hmem : l ∈ envAdditions dest src := by
        refine List.mem_filter.2 ⟨hl, ?_⟩
        rw [Bool.and_eq_true]
        refine ⟨hkv, ?_⟩
        rw [Bool.not_eq_true']
        rw [← Bool.not_eq_true]
        intro hcon
        exact hk (contains_iff_mem.1 hcon)
      unfold keysOfLines
      exact List.mem_map_of_mem lineKey (List.mem_filter.2 ⟨hmem, hkv⟩)

/-- C3: the merge leaves the pre-existing destination content unchanged as a
byte-for-byte prefix, and every key/value line in the appended region is a
source line whose key is absent from the destination. -/
theorem c3_merge_append_only :
    ∀ dest src,
      (prepare_supabase_env dest src).take dest.length = dest
      ∧ ∀ l ∈ splitNl ((prepare_supabase_env dest src).drop dest.length),
          isKVLine l = true → l ∈ splitNl src ∧ lineKey l ∉ envKeys dest := by
  intro dest src
  unfold prepare_supabase_env
  by_cases h : envAdditions dest src = []
  · rw [if_pos h]
    refine ⟨List.take_length dest, ?_⟩
    intro l hl
    rw [List.drop_length] at hl
    simp [splitNl_nil] at hl
  · rw [if_neg h]
    constructor
    · rw [List.append_assoc, List.take_left]
    · intro l hl hkv
      rw [List.append_assoc, List.drop_left] at hl
      have hmb : envMarkerBlock ++ (envAdditions dest src).flatten
          = '\n' :: (envMarkerLine ++ (envAdditions dest src).flatten) := by
        have : envMarkerBlock = '\n' :: envMarkerLine := by decide
        rw [this]; simp
      rw [hmb, splitNl_cons_nl,
        splitNl_append_of_endsNl envMarkerLine _ (by decide)] at hl
      have hml : splitNl envMarkerLine = [envMarkerLine] := by decide
      have hpl : ProperLines (envAdditions dest src) := by
        unfold envAdditions
        exact properLines_filter _ _ (lineWF_splitNl src)
      have hadds : splitNl (envAdditions dest src).flatten = envAdditions dest src :=
        splitNl_flatten _ hpl
      rw [hml, hadds] at hl
      rcases List.mem_cons.1 hl with rfl | hl'
      · exact absurd hkv (by decide)
      rcases List.mem_append.1 hl' with hl'' | hl''
      · rw [List.mem_singleton] at hl''
        subst hl''
        exact absurd hkv (by decide)
      · have := List.mem_filter.1 hl''
        refine ⟨this.1, ?_⟩
        have hp := this.2
        rw [Bool.and_eq_true] at hp
        have := hp.2
        rw [Bool.not_eq_true'] at this
        intro hmem
        rw [← @contains_iff_mem (List Char) _ _ (envKeys dest) (lineKey l)] at hmem
        rw [this] at hmem
        cases hmem

/-- C3 witness: the frame property evaluated at a concrete destination and
source, including the characterisation of one concrete appended line. -/
theorem c3_merge_append_only_witness :
    (prepare_supabase_env "A=1\n".toList "A=2\nB=3\n".toList).take
        ("A=1\n".toList).length = "A=1\n".toList
    ∧ ("B=3\n".toList ∈ splitNl "A=2\nB=3\n".toList
        ∧ lineKey "B=3\n".toList ∉ envKeys "A=1\n".toList) :=
  ⟨(c3_merge_append_only "A=1\n".toList "A=2\nB=3\n".toList).1,
    (c3_merge_append_only "A=1\n".toList "A=2\nB=3\n".toList).2 "B=3\n".toList
      (by decide) (by decide)⟩

/-- C5: merging the same source a second time computes no additions (so no
write happens) and leaves the destination content unchanged. -/
theorem c5_merge_idempotent :
    ∀ dest src,
      envAdditions (prepare_supabase_env dest src) src = []
      ∧ prepare_supabase_env (prepare_supabase_env dest src) src
          = prepare_supabase_env dest src := by
  intro dest src
  have hadd : envAdditions (prepare_supabase_env dest src) src = [] := by
    unfold envAdditions
    rw [List.filter_eq_nil_iff]
    intro l hl
    rw [Bool.and_eq_true, not_and]
    intro hkv
    rw [Bool.not_eq_true', Bool.not_eq_false]
    exact contains_iff_mem.2 (envKeys_merge_superset dest src l hl hkv)
  refine ⟨hadd, ?_⟩
  conv =>
    lhs
    rw [prepare_supabase_env]
  rw [if_pos hadd]

/-- The elapsed time of the polling loop never exceeds timeout + 3 when every
connection attempt takes at most the 2 second socket timeout (induction on an
upper bound of the remaining loop measure). -/
theorem waitLoop_elapsed_le (attempts : Nat → Nat × Bool)
    (hd : ∀ n, (attempts n).1 ≤ 2) :
    ∀ m timeout k now, timeout - now ≤ m → now ≤ timeout + 3 →
      (waitLoop attempts timeout k now).2 ≤ timeout + 3 := by
  intro m
  induction m with
  | zero =>
    intro timeout k now hm hnow
    rw [waitLoop.eq_def]
    have : ¬ now < timeout := by omega
    rw [dif_neg this]
    exact hnow
  | succ m ih =>
    intro timeout k now hm hnow
    rw [waitLoop.eq_def]
    by_cases h : now < timeout
    · rw [dif_pos h]
      by_cases hs : (attempts k).2
      · rw [if_pos hs]
        show now + (attempts k).1 ≤ timeout + 3
        have := hd k
        omega
      · rw [if_neg hs]
        exact ih timeout (k + 1) (now + (attempts k).1 + 2) (by omega)
          (by have := hd k; omega)
    · rw [dif_neg h]
      exact hnow

/-- When no connection attempt ever succeeds, the polling loop returns False. -/
theorem waitLoop_unreachable_false (attempts : Nat → Nat × Bool)
    (hs : ∀ n, (attempts n).2 = false) :
    ∀ m timeout k now, timeout - now ≤ m →
      (waitLoop attempts timeout k now).1 = false := by
  intro m
  induction m with
  | zero =>
    intro timeout k now hm
    rw [waitLoop.eq_def]
    have : ¬ now < timeout := by omega
    rw [dif_neg this]
  | succ m ih =>
    intro timeout k now hm
    rw [waitLoop.eq_def]
    by_cases h : now < timeout
    · rw [dif_pos h, hs k]
      simp only [Bool.false_eq_true, if_false]
      exact ih timeout (k + 1) (now + (attempts k).1 + 2) (by omega)
    · rw [dif_neg h]

/-- C1 counterexample: the claim quantifies the superset property over all
environment/profile combinations, not just the one supplied to down.  The
up-local command for the public environment passes
docker-compose.override.public.yml, but a down issued for the private
environment does not include that file. -/
theorem c1_counterexample :
    "docker-compose.override.public.yml"
        ∈ composeFilesOf (compose_up_local_ai "cpu" "public")
    ∧ "docker-compose.override.public.yml"
        ∉ composeFilesOf (compose_down "cpu" "private") := by
  decide

/-- C1 amended: for every environment in {private, public} and all CLI
profiles, the file set of down for that environment is a superset of the file
sets of up-dependency and up-local for the same environment (the override
files of the other environment are not included). -/
theorem c1_down_superset_same_environment :
    ∀ pd pu e, pd ∈ cliProfiles → pu ∈ cliProfiles → e ∈ cliEnvironments →
      (∀ f ∈ composeFilesOf (compose_up_supabase e),
        f ∈ composeFilesOf (compose_down pd e))
      ∧ (∀ f ∈ composeFilesOf (compose_up_local_ai pu e),
        f ∈ composeFilesOf (compose_down pd e)) := by
  intro pd pu e hpd hpu he
  fin_cases hpd <;> fin_cases hpu <;> fin_cases he <;> exact (by decide)

/-- C1 witness: the amended superset property at a concrete input. -/
theorem c1_down_superset_same_environment_witness :
    (∀ f ∈ composeFilesOf (compose_up_supabase "public"),
      f ∈ composeFilesOf (compose_down "gpu-nvidia" "public"))
    ∧ (∀ f ∈ composeFilesOf (compose_up_local_ai "cpu" "public"),
      f ∈ composeFilesOf (compose_down "gpu-nvidia" "public")) :=
  c1_down_superset_same_environment "gpu-nvidia" "cpu" "public"
    (by decide) (by decide) (by decide)

/-- C8: up-dependency passes only the dependency compose file, plus exactly the
dependency-specific public override when the environment is public, and never a
profile filter; up-local for public passes exactly one override file and the
profile filter exactly when the profile is not "none". -/
theorem c8_up_command_shape :
    ∀ e p, e ∈ cliEnvironments → p ∈ cliProfiles →
      composeFilesOf (compose_up_supabase e)
          = "supabase/docker/docker-compose.yml"
              :: (if e = "public" then ["docker-compose.override.public.supabase.yml"] else [])
      ∧ "--profile" ∉ compose_up_supabase e
      ∧ composeFilesOf (compose_up_local_ai p "public")
          = ["docker-compose.yml", "docker-compose.override.public.yml"]
      ∧ ("--profile" ∈ compose_up_local_ai p "public" ↔ p ≠ "none") := by
  intro e p he hp
  fin_cases he <;> fin_cases hp <;> exact (by decide)

/-- C8 witness: the command shapes at a concrete input. -/
theorem c8_up_command_shape_witness :
    composeFilesOf (compose_up_supabase "public")
        = "supabase/docker/docker-compose.yml"
            :: (if "public" = "public" then ["docker-compose.override.public.supabase.yml"] else [])
    ∧ "--profile" ∉ compose_up_supabase "public"
    ∧ composeFilesOf (compose_up_local_ai "cpu" "public")
        = ["docker-compose.yml", "docker-compose.override.public.yml"]
    ∧ ("--profile" ∈ compose_up_local_ai "cpu" "public" ↔ "cpu" ≠ "none") :=
  c8_up_command_shape "public" "cpu" (by decide) (by decide)

/-- C7 counterexample: with a 9 second timeout and every connection attempt
taking the full 2 second socket timeout before failing, the probe returns only
at elapsed time 12, which exceeds timeout plus one 2 second poll interval. -/
theorem c7_counterexample :
    (wait_for_postgres (fun _ => (2, false)) 9).2 = 12
    ∧ ¬ ((wait_for_postgres (fun _ => (2, false)) 9).2 ≤ 9 + 2) := by
  have h : wait_for_postgres (fun _ => (2, false)) 9 = (false, 12) := by
    unfold wait_for_postgres
    rw [waitLoop.eq_def]; norm_num
    rw [waitLoop.eq_def]; norm_num
    rw [waitLoop.eq_def]; norm_num
    rw [waitLoop.eq_def]; norm_num
  rw [h]
  norm_num

/-- C7 amended: the readiness probe always terminates (the polling loop is a
total function), and when every connection attempt takes at most its 2 second
socket timeout the elapsed time at return is at most timeout plus one 2 second
poll interval plus one 2 second connection-attempt timeout. -/
theorem c7_probe_terminates_bounded :
    ∀ attempts timeout, (∀ n, (attempts n).1 ≤ 2) →
      (wait_for_postgres attempts timeout).2 ≤ timeout + 2 + 2 := by
  intro attempts timeout hd
  have h := waitLoop_elapsed_le attempts hd timeout timeout 0 0 (by omega) (by omega)
  unfold wait_for_postgres
  omega

/-- C7 witness: the amended bound at a concrete input. -/
theorem c7_probe_terminates_bounded_witness :
    (wait_for_postgres (fun _ => (2, false)) 9).2 ≤ 9 + 2 + 2 :=
  c7_probe_terminates_bounded (fun _ => (2, false)) 9 (fun _ => Nat.le_refl 2)

/-- C9: the readiness probe returns a boolean; when no attempt ever succeeds it
returns False (it never raises), and the controller still performs the local
startup for either probe outcome, with the fallback sleep present exactly when
the probe failed and wait_seconds is positive. -/
theorem c9_probe_failure_soft :
    ∀ attempts timeout ready waitSeconds profile environment,
      (∀ n, (attempts n).2 = false) →
      (wait_for_postgres attempts timeout).1 = false
      ∧ StartAction.runCompose (compose_up_local_ai profile environment)
          ∈ controller_after_probe ready waitSeconds profile environment
      ∧ controller_after_probe false waitSeconds profile environment
          = (if 0 < waitSeconds then [StartAction.sleepFallback waitSeconds] else [])
            ++ [StartAction.runCompose (compose_up_local_ai profile environment)] := by
  intro attempts timeout ready waitSeconds profile environment hs
  refine ⟨?_, ?_, ?_⟩
  · exact waitLoop_unreachable_false attempts hs timeout timeout 0 0 (by omega)
  · simp [controller_after_probe]
  · simp [controller_after_probe]

/-- C9 witness: the soft-failure behaviour at a concrete input. -/
theorem c9_probe_failure_soft_witness :
    (wait_for_postgres (fun _ => (2, false)) 9).1 = false
    ∧ StartAction.runCompose (compose_up_local_ai "cpu" "private")
        ∈ controller_after_probe false 5 "cpu" "private"
    ∧ controller_after_probe false 5 "cpu" "private"
        = (if (0 : Int) < 5 then [StartAction.sleepFallback 5] else [])
          ++ [StartAction.runCompose (compose_up_local_ai "cpu" "private")] :=
  c9_probe_failure_soft (fun _ => (2, false)) 9 false 5 "cpu" "private" (fun _ => rfl)

theorem pre_append_split {α : Type} (l a b : List α) (h : l <+: a ++ b) :
    l <+: a ∨ ∃ q, l = a ++ q ∧ q <+: b := by
  induction a generalizing l with
  | nil => exact Or.inr ⟨l, rfl, h⟩
  | cons x a' ih =>
    cases l with
    | nil => exact Or.inl ⟨x :: a', rfl⟩
    | cons y l' =>
      rw [List.cons_append] at h
      rcases List.cons_prefix_cons.1 h with ⟨rfl, h'⟩
      rcases ih l' h' with h'' | ⟨q, rfl, hq⟩
      · exact Or.inl (List.cons_prefix_cons.2 ⟨rfl, h''⟩)
      · exact Or.inr ⟨q, by rw [List.cons_append], hq⟩

theorem infx_append_split {α : Type} (l a b : List α) (h : l <:+: a ++ b) :
    l <:+: a ∨ l <:+: b
      ∨ ∃ p q, l = p ++ q ∧ p ≠ [] ∧ q ≠ [] ∧ p <:+ a ∧ q <+: b := by
  induction a generalizing l with
  | nil => exact Or.inr (Or.inl h)
  | cons x a' ih =>
    rw [List.cons_append] at h
    rcases List.infix_cons_iff.1 h with hp | hi
    · rcases pre_append_split l (x :: a') b (by rwa [List.cons_append]) with h1 | ⟨q, rfl, hq⟩
      · exact Or.inl h1.isInfix
      · by_cases hq0 : q = []
        · subst hq0
          rw [List.append_nil]
          exact Or.inl (List.infix_refl _)
        · exact Or.inr (Or.inr ⟨x :: a', q, rfl, by simp, hq0, List.suffix_refl _, hq⟩)
    · rcases ih l hi with h1 | h2 | ⟨p, q, rfl, hp0, hq0, hps, hqp⟩
      · exact Or.inl (List.infix_cons h1)
      · exact Or.inr (Or.inl h2)
      · exact Or.inr (Or.inr ⟨p, q, rfl, hp0, hq0, hps.trans (List.suffix_cons x a'), hqp⟩)

theorem getLast?_mem_of_ne_nil :
    ∀ l : List Char, l ≠ [] → ∃ y, l.getLast? = some y ∧ y ∈ l := by
  intro l
  induction l with
  | nil => intro h; exact absurd rfl h
  | cons a t ih =>
    intro _
    cases t with
    | nil => exact ⟨a, rfl, List.mem_singleton.2 rfl⟩
    | cons b t' =>
      obtain ⟨y, hy, hm⟩ := ih (by simp)
      exact ⟨y, by rw [List.getLast?_cons_cons]; exact hy, List.mem_cons_of_mem a hm⟩

theorem pyReplaceAux_sufpre (pat rep : List Char)
    (hlast : ∀ h, pat.getLast? = some h → h ∉ rep)
    (hlen : pat.length < rep.length) :
    ∀ fuel s q, s.length ≤ fuel → q ≠ [] → q <:+ pat →
      q <+: pyReplaceAux pat rep fuel s → q <+: s := by
  intro fuel
  induction fuel with
  | zero => intro s q _ _ _ hqp; exact hqp
  | succ fuel ih =>
    intro s q hle hq0 hqs hqp
    cases s with
    | nil => exact hqp
    | cons c rest =>
      simp only [pyReplaceAux] at hqp
      by_cases hp : pat <+: c :: rest
      · rw [if_pos hp] at hqp
        exfalso
        obtain ⟨y, hy, hym⟩ := getLast?_mem_of_ne_nil q hq0
        have hpy : pat.getLast? = some y := by
          obtain ⟨u, rfl⟩ := hqs
          rw [List.getLast?_append_of_ne_nil u hq0]
          exact hy
        rcases pre_append_split q rep _ hqp with h1 | ⟨q', hq', _⟩
        · exact hlast y hpy (h1.subset hym)
        · have h1 : rep.length ≤ q.length := by
            rw [hq']
            simp
          have h2 : q.length ≤ pat.length := hqs.length_le
          omega
      · rw [if_neg hp] at hqp
        cases q with
        | nil => exact absurd rfl hq0
        | cons y q' =>
          obtain ⟨hyc, hq'p⟩ := List.cons_prefix_cons.1 hqp
          subst hyc
          by_cases hq'0 : q' = []
          · subst hq'0
            exact List.cons_prefix_cons.2 ⟨rfl, ⟨rest, rfl⟩⟩
          · have hq's : q' <:+ pat := (List.suffix_cons _ q').trans hqs
            have hrest : rest.length ≤ fuel := by
              simp only [List.length_cons] at hle
              omega
            exact List.cons_prefix_cons.2 ⟨rfl, ih rest q' hrest hq'0 hq's hq'p⟩

theorem pyReplaceAux_no_occurrence (pat rep : List Char) (hne : pat ≠ [])
    (hhead : ∀ h, pat.head? = some h → h ∉ rep)
    (hlast : ∀ h, pat.getLast? = some h → h ∉ rep)
    (hlen : pat.length < rep.length) :
    ∀ fuel s, s.length ≤ fuel → ¬ pat <:+: pyReplaceAux pat rep fuel s := by
  intro fuel
  induction fuel with
  | zero =>
    intro s hle hinf
    have hs : s = [] := List.length_eq_zero.1 (Nat.le_zero.1 hle)
    subst hs
    obtain ⟨u, v, huv⟩ := hinf
    have huv' : u ++ pat ++ v = [] := huv
    simp only [List.append_eq_nil] at huv'
    exact hne huv'.1.2
  | succ fuel ih =>
    intro s hle hinf
    cases s with
    | nil =>
      obtain ⟨u, v, huv⟩ := hinf
      have huv' : u ++ pat ++ v = [] := huv
      simp only [List.append_eq_nil] at huv'
      exact hne huv'.1.2
    | cons c rest =>
      have hplen : 0 < pat.length := List.length_pos.2 hne
      have hrest : rest.length ≤ fuel := by
        simp only [List.length_cons] at hle
        omega
      simp only [pyReplaceAux] at hinf
      by_cases hp : pat <+: c :: rest
      · rw [if_pos hp] at hinf
        rcases infx_append_split pat rep _ hinf with h1 | h2 | ⟨p, q, hpq, hp0, _, hps, _⟩
        · obtain ⟨h0, pat0, rfl⟩ : ∃ h0 pat0, pat = h0 :: pat0 := by
            cases pat with
            | nil => exact absurd rfl hne
            | cons h0 pat0 => exact ⟨h0, pat0, rfl⟩
          exact hhead h0 rfl (h1.subset (List.mem_cons_self h0 pat0))
        · refine ih _ ?_ h2
          simp only [List.length_drop, List.length_cons]
          omega
        · cases p with
          | nil => exact absurd rfl hp0
          | cons ph pt =>
            have hh : pat.head? = some ph := by rw [hpq]; rfl
            exact hhead ph hh (hps.subset (List.mem_cons_self ph pt))
      · rw [if_neg hp] at hinf
        rcases List.infix_cons_iff.1 hinf with hpre | hinf'
        · cases pat with
          | nil => exact hne rfl
          | cons pc pt =>
            obtain ⟨hyc, hpt⟩ := List.cons_prefix_cons.1 hpre
            subst hyc
            by_cases hpt0 : pt = []
            · subst hpt0
              exact hp (List.cons_prefix_cons.2 ⟨rfl, ⟨rest, rfl⟩⟩)
            · have hpts : pt <:+ pc :: pt := List.suffix_cons pc pt
              have hres := pyReplaceAux_sufpre (pc :: pt) rep hlast hlen fuel rest pt
                hrest hpt0 hpts hpt
              exact hp (List.cons_prefix_cons.2 ⟨rfl, hres⟩)
        · exact ih rest hrest hinf'

theorem generate_key_no_placeholder (text secret : List Char) (h : tokenHex32 secret) :
    ¬ ultrasecretkey <:+: generate_searxng_secret_key text secret := by
  have hu : ultrasecretkey.head? = some 'u' := by decide
  have hy : ultrasecretkey.getLast? = some 'y' := by decide
  unfold generate_searxng_secret_key
  by_cases hin : ultrasecretkey <:+: text
  · rw [if_pos hin]
    refine pyReplaceAux_no_occurrence ultrasecretkey secret (by decide) ?_ ?_ ?_
      text.length text (Nat.le_refl _)
    · intro x hx hmem
      rw [hu] at hx
      obtain rfl : x = 'u' := (Option.some.inj hx).symm
      exact absurd (h.2 'u' hmem) (by decide)
    · intro x hx hmem
      rw [hy] at hx
      obtain rfl : x = 'y' := (Option.some.inj hx).symm
      exact absurd (h.2 'y' hmem) (by decide)
    · rw [h.1]
      decide
  · rw [if_neg hin]
    exact hin

/-- C4: secret provisioning is idempotent.  A token_hex secret is 64 lowercase
hexadecimal characters, so after the first substitution the placeholder is
absent from the settings text and a second run changes nothing; exactly one
secret is ever written. -/
theorem c4_secret_idempotent :
    ∀ text s1 s2, tokenHex32 s1 →
      generate_searxng_secret_key (generate_searxng_secret_key text s1) s2
        = generate_searxng_secret_key text s1 := by
  intro text s1 s2 h
  have hfree := generate_key_no_placeholder text s1 h
  rw [show generate_searxng_secret_key (generate_searxng_secret_key text s1) s2
      = if ultrasecretkey <:+: generate_searxng_secret_key text s1 then
          pyReplace (generate_searxng_secret_key text s1) ultrasecretkey s2
        else generate_searxng_secret_key text s1 from rfl,
    if_neg hfree]

/-- C4 witness: idempotence at a concrete settings text and concrete secrets. -/
theorem c4_secret_idempotent_witness :
    generate_searxng_secret_key
        (generate_searxng_secret_key "k: ultrasecretkey\n".toList (List.replicate 64 'a'))
        (List.replicate 64 'b')
      = generate_searxng_secret_key "k: ultrasecretkey\n".toList (List.replicate 64 'a') :=
  c4_secret_idempotent "k: ultrasecretkey\n".toList (List.replicate 64 'a')
    (List.replicate 64 'b') ⟨by decide, by decide⟩

/-- C10: a token_hex(32) secret is exactly 64 lowercase hexadecimal characters;
the placeholder contains letters outside that alphabet, so the secret never
contains the placeholder, and a provisioned settings text permanently fails the
placeholder check, whichever text was provisioned. -/
theorem c10_secret_never_placeholder :
    ∀ s text, tokenHex32 s →
      s.length = 64
      ∧ ¬ ultrasecretkey <:+: s
      ∧ ¬ ultrasecretkey <:+: generate_searxng_secret_key text s := by
  intro s text h
  refine ⟨h.1, ?_, generate_key_no_placeholder text s h⟩
  intro hinf
  have hu : 'u' ∈ ultrasecretkey := by decide
  exact absurd (h.2 'u' (hinf.subset hu)) (by decide)

/-- C10 witness: the permanent placeholder absence at a concrete secret and text. -/
theorem c10_secret_never_placeholder_witness :
    (List.replicate 64 'a').length = 64
    ∧ ¬ ultrasecretkey <:+: List.replicate 64 'a'
    ∧ ¬ ultrasecretkey <:+:
        generate_searxng_secret_key "k: ultrasecretkey\n".toList (List.replicate 64 'a') :=
  c10_secret_never_placeholder (List.replicate 64 'a') "k: ultrasecretkey\n".toList
    ⟨by decide, by decide⟩

theorem matchLit_self : ∀ p s : List Char, matchLit p (p ++ s) = some s := by
  intro p
  induction p with
  | nil => intro s; rfl
  | cons x ps ih => intro s; simp [matchLit, ih]

theorem dropWhile_head_false {p : Char → Bool} {c : Char} (t : List Char)
    (h : p c = false) : (c :: t).dropWhile p = c :: t := by
  simp [List.dropWhile_cons, h]

theorem dropWhile_head_true {p : Char → Bool} {c : Char} (t : List Char)
    (h : p c = true) : (c :: t).dropWhile p = t.dropWhile p := by
  simp [List.dropWhile_cons, h]

theorem dropWhile_capDropLit (x : List Char) :
    (capDropLit ++ x).dropWhile isPySpace = capDropLit ++ x := by
  have h : capDropLit = 'c' :: "ap_drop:".toList := by decide
  rw [h, List.cons_append, dropWhile_head_false _ (by decide)]

theorem dropWhile_dashAllLit (x : List Char) :
    (dashAllLit ++ x).dropWhile isPySpace = dashAllLit ++ x := by
  have h : dashAllLit = '-' :: " ALL".toList := by decide
  rw [h, List.cons_append, dropWhile_head_false _ (by decide)]

theorem capDropCore_active (b : List Char) :
    capDropCore (activeReplacement ++ b) = some b := by
  have hA : activeReplacement ++ b = capDropLit ++ (' ' :: (dashAllLit ++ b)) := by
    have h : activeReplacement = capDropLit ++ ' ' :: dashAllLit := by decide
    rw [h, List.append_assoc]
    rfl
  rw [hA]
  unfold capDropCore
  rw [dropWhile_capDropLit, matchLit_self]
  show matchLit dashAllLit ((' ' :: (dashAllLit ++ b)).dropWhile isPySpace) = some b
  rw [dropWhile_head_true _ (by decide), dropWhile_dashAllLit, matchLit_self]

theorem commentedCore_cons (c : Char) (t : List Char) :
    commentedCore (c :: t) = if c == '#' then capDropCore t else none := rfl

theorem commentedCore_disabled (b : List Char) :
    commentedCore (disabledReplacement ++ b) = some (markerTail ++ b) := by
  have hD : disabledReplacement ++ b
      = '#' :: (' ' :: (activeReplacement ++ (markerTail ++ b))) := by
    have h : disabledReplacement = '#' :: ' ' :: (activeReplacement ++ markerTail) := by
      decide
    rw [h]
    simp
  rw [hD, commentedCore_cons, if_pos (by decide : (('#' : Char) == '#') = true)]
  show capDropCore (' ' :: (activeReplacement ++ (markerTail ++ b))) = some (markerTail ++ b)
  unfold capDropCore
  rw [dropWhile_head_true _ (by decide)]
  have hA : activeReplacement ++ (markerTail ++ b)
      = capDropLit ++ (' ' :: (dashAllLit ++ (markerTail ++ b))) := by
    have h : activeReplacement = capDropLit ++ ' ' :: dashAllLit := by decide
    rw [h]
    simp
  rw [hA, dropWhile_capDropLit, matchLit_self]
  show matchLit dashAllLit
      ((' ' :: (dashAllLit ++ (markerTail ++ b))).dropWhile isPySpace) = some (markerTail ++ b)
  rw [dropWhile_head_true _ (by decide), dropWhile_dashAllLit, matchLit_self]

theorem matchLit_capDrop_none (c : Char) (t : List Char) (hc : ¬ c = 'c') :
    matchLit capDropLit (c :: t) = none := by
  have h : capDropLit = 'c' :: "ap_drop:".toList := by decide
  rw [h]
  show (if ('c' == c) then matchLit "ap_drop:".toList t else none) = none
  rw [if_neg]
  intro hcc
  exact hc (beq_iff_eq.1 hcc).symm

theorem capDropCore_none_head (c : Char) (t : List Char)
    (hws : isPySpace c = false) (hc : ¬ c = 'c') :
    capDropCore (c :: t) = none := by
  unfold capDropCore
  rw [dropWhile_head_false _ hws, matchLit_capDrop_none c t hc]

theorem commentedCore_none (c : Char) (t : List Char) (hc : ¬ c = '#') :
    commentedCore (c :: t) = none := by
  rw [commentedCore_cons, if_neg]
  intro h
  exact hc (beq_iff_eq.1 h)

theorem capDropCore_space_t (x : List Char) :
    capDropCore (' ' :: 't' :: x) = none := by
  unfold capDropCore
  rw [dropWhile_head_true _ (by decide), dropWhile_head_false _ (by decide),
    matchLit_capDrop_none 't' x (by decide)]

theorem plainChar_spec (c : Char) (h : plainChar c = true) :
    isPySpace c = false ∧ ¬ c = 'c' ∧ ¬ c = '#' := by
  unfold plainChar at h
  simp only [Bool.and_eq_true, Bool.not_eq_true'] at h
  refine ⟨h.1.1, ?_, ?_⟩
  · intro hc
    rw [hc] at h
    simp at h
  · intro hc
    rw [hc] at h
    simp at h

theorem plain_not_nl (c : Char) (hws : isPySpace c = false) : (c == '\n') = false := by
  rw [beq_eq_false_iff_ne]
  intro hc
  rw [hc] at hws
  exact absurd hws (by decide)

theorem searchActive_cons (atLS : Bool) (c : Char) (rest : List Char) :
    searchActive atLS (c :: rest)
      = ((atLS && (capDropCore (c :: rest)).isSome) || searchActive (c == '\n') rest) := rfl

theorem searchCommented_cons (c : Char) (rest : List Char) :
    searchCommented (c :: rest)
      = ((commentedCore (c :: rest)).isSome || searchCommented rest) := rfl

theorem subActive_succ_true (fuel : Nat) (c : Char) (rest : List Char) :
    subActive (fuel + 1) true (c :: rest)
      = match capDropCore (c :: rest) with
        | some rem => disabledReplacement ++ subActive fuel false rem
        | none => c :: subActive fuel (c == '\n') rest := by
  simp [subActive]

theorem subActive_succ_false (fuel : Nat) (c : Char) (rest : List Char) :
    subActive (fuel + 1) false (c :: rest) = c :: subActive fuel (c == '\n') rest := by
  simp [subActive]

theorem subCommented_succ (fuel : Nat) (c : Char) (rest : List Char) :
    subCommented (fuel + 1) (c :: rest)
      = match commentedCore (c :: rest) with
        | some rem => activeReplacement ++ subCommented fuel rem
        | none => c :: subCommented fuel rest := rfl

theorem searchActive_false_no_nl :
    ∀ b : List Char, (∀ c ∈ b, (c == '\n') = false) → searchActive false b = false := by
  intro b
  induction b with
  | nil => intro _; rfl
  | cons c rest ih =>
    intro h
    rw [searchActive_cons, Bool.false_and, Bool.false_or, h c (List.mem_cons_self c rest)]
    exact ih (fun x hx => h x (List.mem_cons_of_mem c hx))

theorem searchCommented_no_hash :
    ∀ s : List Char, (∀ c ∈ s, ¬ c = '#') → searchCommented s = false := by
  intro s
  induction s with
  | nil => intro _; rfl
  | cons c rest ih =>
    intro h
    rw [searchCommented_cons, commentedCore_none c rest (h c (List.mem_cons_self c rest))]
    rw [show (none : Option (List Char)).isSome = false from rfl, Bool.false_or]
    exact ih (fun x hx => h x (List.mem_cons_of_mem c hx))

theorem searchCommented_no_hash_walk :
    ∀ a : List Char, (∀ c ∈ a, ¬ c = '#') →
      ∀ t, searchCommented (a ++ t) = searchCommented t := by
  intro a
  induction a with
  | nil => intro _ t; rfl
  | cons c a' ih =>
    intro h t
    rw [List.cons_append, searchCommented_cons,
      commentedCore_none c _ (h c (List.mem_cons_self c a')),
      show (none : Option (List Char)).isSome = false from rfl, Bool.false_or]
    exact ih (fun x hx => h x (List.mem_cons_of_mem c hx)) t

theorem subActive_no_match :
    ∀ (s : List Char) (atLS : Bool), searchActive atLS s = false →
      ∀ fuel, subActive fuel atLS s = s := by
  intro s
  induction s with
  | nil => intro atLS _ fuel; cases fuel <;> rfl
  | cons c rest ih =>
    intro atLS h fuel
    rw [searchActive_cons, Bool.or_eq_false_iff] at h
    obtain ⟨h1, h2⟩ := h
    cases fuel with
    | zero => rfl
    | succ fuel =>
      cases atLS with
      | false =>
        rw [subActive_succ_false, ih (c == '\n') h2 fuel]
      | true =>
        cases hc : capDropCore (c :: rest) with
        | some r =>
          rw [hc] at h1
          simp at h1
        | none =>
          rw [subActive_succ_true, hc, ih (c == '\n') h2 fuel]

theorem subCommented_no_match :
    ∀ s : List Char, searchCommented s = false → ∀ fuel, subCommented fuel s = s := by
  intro s
  induction s with
  | nil => intro _ fuel; cases fuel <;> rfl
  | cons c rest ih =>
    intro h fuel
    rw [searchCommented_cons, Bool.or_eq_false_iff] at h
    obtain ⟨h1, h2⟩ := h
    cases fuel with
    | zero => rfl
    | succ fuel =>
      cases hc : commentedCore (c :: rest) with
      | some r =>
        rw [hc] at h1
        simp at h1
      | none =>
        rw [subCommented_succ, hc, ih h2 fuel]

theorem subActive_plain_step (fuel : Nat) (atLS : Bool) (c : Char) (t : List Char)
    (h : plainChar c = true) :
    subActive (fuel + 1) atLS (c :: t) = c :: subActive fuel false t := by
  obtain ⟨hws, hc, _⟩ := plainChar_spec c h
  have hnl : (c == '\n') = false := plain_not_nl c hws
  cases atLS with
  | false => rw [subActive_succ_false, hnl]
  | true => rw [subActive_succ_true, capDropCore_none_head c t hws hc, hnl]

theorem subActive_nl_step (fuel : Nat) (t : List Char) :
    subActive (fuel + 1) false ('\n' :: t) = '\n' :: subActive fuel true t := by
  rw [subActive_succ_false, show (('\n' : Char) == '\n') = true from rfl]

theorem subActive_match_step (fuel : Nat) (b : List Char) :
    subActive (fuel + 1) true (activeReplacement ++ b)
      = disabledReplacement ++ subActive fuel false b := by
  have hsh : activeReplacement ++ b = 'c' :: ("ap_drop: - ALL".toList ++ b) := by
    have h : activeReplacement = 'c' :: "ap_drop: - ALL".toList := by decide
    rw [h, List.cons_append]
  have hcore := capDropCore_active b
  rw [hsh] at hcore
  rw [hsh, subActive_succ_true, hcore]

theorem subActive_plain_walk :
    ∀ a : List Char, a ≠ [] → (∀ c ∈ a, plainChar c = true) →
      ∀ fuel atLS t,
        subActive (a.length + fuel) atLS (a ++ t) = a ++ subActive fuel false t := by
  intro a
  induction a with
  | nil => intro h; exact absurd rfl h
  | cons c a' ih =>
    intro _ hall fuel atLS t
    have hlen : (c :: a').length + fuel = (a'.length + fuel) + 1 := by
      simp [List.length_cons]
      omega
    rw [hlen, List.cons_append,
      subActive_plain_step _ _ _ _ (hall c (List.mem_cons_self c a'))]
    by_cases ha' : a' = []
    · subst ha'
      simp
    · rw [ih ha' (fun x hx => hall x (List.mem_cons_of_mem c hx)) fuel false t,
        List.cons_append]

theorem subActive_plain_id (b : List Char) (h : ∀ c ∈ b, plainChar c = true) (fuel : Nat) :
    subActive fuel false b = b := by
  refine subActive_no_match b false ?_ fuel
  refine searchActive_false_no_nl b ?_
  intro c hc
  exact plain_not_nl c (plainChar_spec c (h c hc)).1

theorem searchActive_plain_walk :
    ∀ a : List Char, a ≠ [] → (∀ c ∈ a, plainChar c = true) →
      ∀ atLS t, searchActive atLS (a ++ t) = searchActive false t := by
  intro a
  induction a with
  | nil => intro h; exact absurd rfl h
  | cons c a' ih =>
    intro _ hall atLS t
    obtain ⟨hws, hc, _⟩ := plainChar_spec c (hall c (List.mem_cons_self c a'))
    rw [List.cons_append, searchActive_cons, capDropCore_none_head c _ hws hc,
      show (none : Option (List Char)).isSome = false from rfl, Bool.and_false,
      Bool.false_or, plain_not_nl c hws]
    by_cases ha' : a' = []
    · subst ha'
      rfl
    · exact ih ha' (fun x hx => hall x (List.mem_cons_of_mem c hx)) false t

theorem searchActive_head_true (c : Char) (t : List Char)
    (h : (capDropCore (c :: t)).isSome = true) :
    searchActive true (c :: t) = true := by
  rw [searchActive_cons, h, Bool.true_and, Bool.true_or]

theorem subCommented_no_hash_step (fuel : Nat) (c : Char) (t : List Char) (hc : ¬ c = '#') :
    subCommented (fuel + 1) (c :: t) = c :: subCommented fuel t := by
  rw [subCommented_succ, commentedCore_none c t hc]

theorem subCommented_walk :
    ∀ a : List Char, (∀ c ∈ a, ¬ c = '#') →
      ∀ fuel t, subCommented (a.length + fuel) (a ++ t) = a ++ subCommented fuel t := by
  intro a
  induction a with
  | nil => intro _ fuel t; simp
  | cons c a' ih =>
    intro h fuel t
    have hlen : (c :: a').length + fuel = (a'.length + fuel) + 1 := by
      simp [List.length_cons]
      omega
    rw [hlen, List.cons_append,
      subCommented_no_hash_step _ _ _ (h c (List.mem_cons_self c a')),
      ih (fun x hx => h x (List.mem_cons_of_mem c hx)) fuel t, List.cons_append]

theorem subCommented_match_step (fuel : Nat) (b : List Char) :
    subCommented (fuel + 1) (disabledReplacement ++ b)
      = activeReplacement ++ subCommented fuel (markerTail ++ b) := by
  have hsh : disabledReplacement ++ b
      = '#' :: (" cap_drop: - ALL  # temporarily disabled first run".toList ++ b) := by
    have h : disabledReplacement
        = '#' :: " cap_drop: - ALL  # temporarily disabled first run".toList := by decide
    rw [h, List.cons_append]
  have hcore := commentedCore_disabled b
  rw [hsh] at hcore
  rw [hsh, subCommented_succ, hcore]

theorem searchCommented_marker_tail (b : List Char) (hb : ∀ c ∈ b, ¬ c = '#') :
    searchCommented (markerTail ++ b) = false := by
  have hsh : markerTail ++ b
      = ' ' :: (' ' :: ('#' :: (" temporarily disabled first run".toList ++ b))) := by
    have h : markerTail = ' ' :: ' ' :: '#' :: " temporarily disabled first run".toList := by
      decide
    rw [h]
    simp
  have hw : commentedCore ('#' :: (" temporarily disabled first run".toList ++ b)) = none := by
    have hsh2 : " temporarily disabled first run".toList ++ b
        = ' ' :: 't' :: ("emporarily disabled first run".toList ++ b) := by
      have h2 : " temporarily disabled first run".toList
          = ' ' :: 't' :: "emporarily disabled first run".toList := by decide
      rw [h2]
      simp
    rw [commentedCore_cons, if_pos (by decide : (('#' : Char) == '#') = true), hsh2,
      capDropCore_space_t]
  have ht : searchCommented (" temporarily disabled first run".toList ++ b) = false := by
    rw [searchCommented_no_hash_walk _ (by decide) b]
    exact searchCommented_no_hash b hb
  rw [hsh, searchCommented_cons, searchCommented_cons, searchCommented_cons,
    commentedCore_none ' ' _ (by decide), commentedCore_none ' ' _ (by decide), hw, ht]
  rfl

theorem subCommented_marker_id (b : List Char) (hb : ∀ c ∈ b, ¬ c = '#') (fuel : Nat) :
    subCommented fuel (markerTail ++ b) = markerTail ++ b :=
  subCommented_no_match _ (searchCommented_marker_tail b hb) fuel

theorem searchActive_active_doc (a' b : List Char) (ha : a' ≠ [])
    (hpa : ∀ c ∈ a', plainChar c = true) :
    searchActive true (a' ++ ('\n' :: (activeReplacement ++ b))) = true := by
  rw [searchActive_plain_walk a' ha hpa, searchActive_cons, Bool.false_and, Bool.false_or,
    show (('\n' : Char) == '\n') = true from rfl]
  have hsh : activeReplacement ++ b = 'c' :: ("ap_drop: - ALL".toList ++ b) := by
    have h : activeReplacement = 'c' :: "ap_drop: - ALL".toList := by decide
    rw [h, List.cons_append]
  rw [hsh]
  refine searchActive_head_true _ _ ?_
  rw [← hsh, capDropCore_active]
  rfl

theorem searchCommented_disabled_doc (a' b : List Char)
    (hpa : ∀ c ∈ a', plainChar c = true) :
    searchCommented ((a' ++ ['\n']) ++ (disabledReplacement ++ b)) = true := by
  have hctx : ∀ c ∈ a' ++ ['\n'], ¬ c = '#' := by
    intro c hc
    rcases List.mem_append.1 hc with h | h
    · exact (plainChar_spec c (hpa c h)).2.2
    · rw [List.mem_singleton] at h
      subst h
      decide
  rw [searchCommented_no_hash_walk _ hctx]
  have hsh : disabledReplacement ++ b
      = '#' :: (" cap_drop: - ALL  # temporarily disabled first run".toList ++ b) := by
    have h : disabledReplacement
        = '#' :: " cap_drop: - ALL  # temporarily disabled first run".toList := by decide
    rw [h, List.cons_append]
  have hcore := commentedCore_disabled b
  rw [hsh] at hcore
  rw [hsh, searchCommented_cons, hcore]
  rfl

theorem searchActive_disabled_doc (a' b : List Char) (ha : a' ≠ [])
    (hpa : ∀ c ∈ a', plainChar c = true) (hpb : ∀ c ∈ b, plainChar c = true) :
    searchActive true (a' ++ ('\n' :: (disabledReplacement ++ b))) = false := by
  rw [searchActive_plain_walk a' ha hpa, searchActive_cons, Bool.false_and, Bool.false_or,
    show (('\n' : Char) == '\n') = true from rfl]
  have hsh : disabledReplacement ++ b
      = '#' :: (" cap_drop: - ALL  # temporarily disabled first run".toList ++ b) := by
    have h : disabledReplacement
        = '#' :: " cap_drop: - ALL  # temporarily disabled first run".toList := by decide
    rw [h, List.cons_append]
  rw [hsh, searchActive_cons, capDropCore_none_head '#' _ (by decide) (by decide),
    show (none : Option (List Char)).isSome = false from rfl, Bool.and_false, Bool.false_or,
    show (('#' : Char) == '\n') = false from rfl]
  refine searchActive_false_no_nl _ ?_
  intro c hc
  rcases List.mem_append.1 hc with h | h
  · have hall : ∀ x ∈ " cap_drop: - ALL  # temporarily disabled first run".toList,
        (x == '\n') = false := by decide
    exact hall c h
  · exact plain_not_nl c (plainChar_spec c (hpb c h)).1

theorem searchCommented_active_doc (a' b : List Char)
    (hpa : ∀ c ∈ a', plainChar c = true) (hpb : ∀ c ∈ b, plainChar c = true) :
    searchCommented ((a' ++ ['\n']) ++ activeReplacement ++ b) = false := by
  refine searchCommented_no_hash _ ?_
  intro c hc
  rcases List.mem_append.1 hc with h | h
  · rcases List.mem_append.1 h with h1 | h1
    · rcases List.mem_append.1 h1 with h2 | h2
      · exact (plainChar_spec c (hpa c h2)).2.2
      · rw [List.mem_singleton] at h2
        subst h2
        decide
    · have hall : ∀ x ∈ activeReplacement, ¬ x = '#' := by decide
      exact hall c h1
  · exact (plainChar_spec c (hpb c h)).2.2

theorem first_run_on_active (a' b : List Char) (ha : a' ≠ [])
    (hpa : ∀ c ∈ a', plainChar c = true) (hpb : ∀ c ∈ b, plainChar c = true) :
    adjust_cap_drop_first_run ((a' ++ ['\n']) ++ activeReplacement ++ b)
      = (a' ++ ['\n']) ++ disabledReplacement ++ b := by
  have hshape : (a' ++ ['\n']) ++ activeReplacement ++ b
      = a' ++ ('\n' :: (activeReplacement ++ b)) := by simp
  have hsearch := searchActive_active_doc a' b ha hpa
  have hlen : (a' ++ ('\n' :: (activeReplacement ++ b))).length
      = a'.length + ((15 + b.length) + 1) := by
    have h15 : activeReplacement.length = 15 := by decide
    simp only [List.length_append, List.length_cons]
    omega
  unfold adjust_cap_drop_first_run
  rw [hshape, if_pos hsearch, hlen,
    subActive_plain_walk a' ha hpa ((15 + b.length) + 1) true ('\n' :: (activeReplacement ++ b)),
    subActive_nl_step,
    (show 15 + b.length = (14 + b.length) + 1 by omega),
    subActive_match_step, subActive_plain_id b hpb]
  simp

theorem not_first_run_on_disabled (a' b : List Char)
    (hpa : ∀ c ∈ a', plainChar c = true) (hpb : ∀ c ∈ b, plainChar c = true) :
    adjust_cap_drop_not_first_run ((a' ++ ['\n']) ++ disabledReplacement ++ b)
      = (a' ++ ['\n']) ++ activeReplacement ++ markerTail ++ b := by
  have hctx : ∀ c ∈ a' ++ ['\n'], ¬ c = '#' := by
    intro c hc
    rcases List.mem_append.1 hc with h | h
    · exact (plainChar_spec c (hpa c h)).2.2
    · rw [List.mem_singleton] at h
      subst h
      decide
  have hb : ∀ c ∈ b, ¬ c = '#' := fun c hc => (plainChar_spec c (hpb c hc)).2.2
  have hshape : (a' ++ ['\n']) ++ disabledReplacement ++ b
      = (a' ++ ['\n']) ++ (disabledReplacement ++ b) := by simp
  have hsearch := searchCommented_disabled_doc a' b hpa
  have hlen : ((a' ++ ['\n']) ++ (disabledReplacement ++ b)).length
      = (a' ++ ['\n']).length + ((50 + b.length) + 1) := by
    have h51 : disabledReplacement.length = 51 := by decide
    simp only [List.length_append, List.length_cons, List.length_nil]
    omega
  unfold adjust_cap_drop_not_first_run
  rw [hshape, if_pos hsearch, hlen,
    subCommented_walk (a' ++ ['\n']) hctx ((50 + b.length) + 1) (disabledReplacement ++ b),
    subCommented_match_step, subCommented_marker_id b hb]
  simp

/-- C2 counterexample: the active declaration indented by two spaces.  The
active pattern captures the leading whitespace, so the disable and re-enable
round trip returns the declaration with its indentation stripped and the
marker appended; the result is not the original document modulo the marker
(the two leading spaces are gone), and not the original either. -/
theorem c2_counterexample :
    adjust_cap_drop_not_first_run (adjust_cap_drop_first_run "  cap_drop: - ALL".toList)
        = "cap_drop: - ALL  # temporarily disabled first run".toList
    ∧ adjust_cap_drop_not_first_run (adjust_cap_drop_first_run "  cap_drop: - ALL".toList)
        ≠ "  cap_drop: - ALL  # temporarily disabled first run".toList
    ∧ adjust_cap_drop_not_first_run (adjust_cap_drop_first_run "  cap_drop: - ALL".toList)
        ≠ "  cap_drop: - ALL".toList := by
  refine ⟨by decide, by decide, by decide⟩

/-- C2 amended: when the active declaration sits unindented at the start of a
line whose surrounding context is plain (no whitespace, no cap_drop letter, no
comment mark), applying the first-run transform and then the not-first-run
transform yields the original document with exactly the explanatory marker
comment appended after the declaration.  For indented declarations the round
trip also removes the captured leading whitespace. -/
theorem c2_cap_drop_round_trip :
    ∀ a' b : List Char, a' ≠ [] →
      (∀ c ∈ a', plainChar c = true) → (∀ c ∈ b, plainChar c = true) →
      adjust_cap_drop_not_first_run
          (adjust_cap_drop_first_run ((a' ++ ['\n']) ++ activeReplacement ++ b))
        = (a' ++ ['\n']) ++ activeReplacement ++ markerTail ++ b := by
  intro a' b ha hpa hpb
  rw [first_run_on_active a' b ha hpa hpb, not_first_run_on_disabled a' b hpa hpb]

/-- C2 witness: the round trip at a concrete document. -/
theorem c2_cap_drop_round_trip_witness :
    adjust_cap_drop_not_first_run
        (adjust_cap_drop_first_run ((['x'] ++ ['\n']) ++ activeReplacement ++ ['y']))
      = (['x'] ++ ['\n']) ++ activeReplacement ++ markerTail ++ ['y'] :=
  c2_cap_drop_round_trip ['x'] ['y'] (by decide) (by decide) (by decide)

/-- C6 counterexample: a document containing the active declaration at a line
start, preceded by a stray comment mark on the previous line.  Both patterns
match it (the commented pattern's whitespace class crosses the newline), so
the document is in both states at once, and the enable transform is not a
no-op even though the declaration is already active. -/
theorem c6_counterexample :
    searchActive true "#\ncap_drop: - ALL".toList = true
    ∧ searchCommented "#\ncap_drop: - ALL".toList = true
    ∧ adjust_cap_drop_not_first_run "#\ncap_drop: - ALL".toList
        ≠ "#\ncap_drop: - ALL".toList := by
  refine ⟨by decide, by decide, by decide⟩

/-- C6 amended: over documents embedding one of the two canonical textual
forms in plain context, the two patterns are mutually exclusive and
collectively exhaustive (the active form matches exactly the active pattern,
the disabled form exactly the commented pattern) and each toggle direction is
a no-op on a document already in its target state; but this fails for
arbitrary documents containing the declaration, since the commented pattern's
whitespace class can cross line boundaries. -/
theorem c6_pattern_states :
    ∀ a' b : List Char, a' ≠ [] →
      (∀ c ∈ a', plainChar c = true) → (∀ c ∈ b, plainChar c = true) →
      (searchActive true ((a' ++ ['\n']) ++ activeReplacement ++ b) = true
        ∧ searchCommented ((a' ++ ['\n']) ++ activeReplacement ++ b) = false
        ∧ adjust_cap_drop_not_first_run ((a' ++ ['\n']) ++ activeReplacement ++ b)
            = (a' ++ ['\n']) ++ activeReplacement ++ b)
      ∧ (searchActive true ((a' ++ ['\n']) ++ disabledReplacement ++ b) = false
        ∧ searchCommented ((a' ++ ['\n']) ++ disabledReplacement ++ b) = true
        ∧ adjust_cap_drop_first_run ((a' ++ ['\n']) ++ disabledReplacement ++ b)
            = (a' ++ ['\n']) ++ disabledReplacement ++ b) := by
  intro a' b ha hpa hpb
  have hshapeA : (a' ++ ['\n']) ++ activeReplacement ++ b
      = a' ++ ('\n' :: (activeReplacement ++ b)) := by simp
  have hshapeD : (a' ++ ['\n']) ++ disabledReplacement ++ b
      = a' ++ ('\n' :: (disabledReplacement ++ b)) := by simp
  have hshapeD' : (a' ++ ['\n']) ++ disabledReplacement ++ b
      = (a' ++ ['\n']) ++ (disabledReplacement ++ b) := by simp
  refine ⟨⟨?_, ?_, ?_⟩, ?_, ?_, ?_⟩
  · rw [hshapeA]
    exact searchActive_active_doc a' b ha hpa
  · exact searchCommented_active_doc a' b hpa hpb
  · have h := searchCommented_active_doc a' b hpa hpb
    unfold adjust_cap_drop_not_first_run
    rw [if_neg]
    rw [h]
    simp
  · rw [hshapeD]
    exact searchActive_disabled_doc a' b ha hpa hpb
  · rw [hshapeD']
    exact searchCommented_disabled_doc a' b hpa
  · have h : searchActive true ((a' ++ ['\n']) ++ disabledReplacement ++ b) = false := by
      rw [hshapeD]
      exact searchActive_disabled_doc a' b ha hpa hpb
    unfold adjust_cap_drop_first_run
    rw [if_neg]
    rw [h]
    simp

/-- C6 witness: the exclusive states and no-ops at a concrete document. -/
theorem c6_pattern_states_witness :
    (searchActive true ((['x'] ++ ['\n']) ++ activeReplacement ++ ['y']) = true
      ∧ searchCommented ((['x'] ++ ['\n']) ++ activeReplacement ++ ['y']) = false
      ∧ adjust_cap_drop_not_first_run ((['x'] ++ ['\n']) ++ activeReplacement ++ ['y'])
          = (['x'] ++ ['\n']) ++ activeReplacement ++ ['y'])
    ∧ (searchActive true ((['x'] ++ ['\n']) ++ disabledReplacement ++ ['y']) = false
      ∧ searchCommented ((['x'] ++ ['\n']) ++ disabledReplacement ++ ['y']) = true
      ∧ adjust_cap_drop_first_run ((['x'] ++ ['\n']) ++ disabledReplacement ++ ['y'])
          = (['x'] ++ ['\n']) ++ disabledReplacement ++ ['y']) :=
  c6_pattern_states ['x'] ['y'] (by decide) (by decide) (by decide)
